import Mathlib

/-!
Shallow embedding of `scripts/build_dashboard.py` (My-Manager): the status
normalizer, the aggregation maps, the violation rules and the two sorts.
Strings are Lean `String`s; Python `dict.get` chains are modelled with
`Option`; the two regexes `RE_NEXT` and `RE_P1` are modelled directly on
character lists; map accesses that could raise `KeyError` return `Option`.
-/

namespace Dashboard

/-- Python truthiness fallback `a or b` for optional strings:
`None` and `""` are falsy. -/
def pyOr (a : Option String) (b : String) : String :=
  match a with
  | none => b
  | some s => if s == "" then b else s

/-- Whitespace class used by Python `str.strip` and the regex `\s`
(ASCII fragment). -/
def isPyWS (c : Char) : Bool :=
  c == ' ' || c == '\t' || c == '\n' || c == '\r' || c == '\x0b' || c == '\x0c'

/-- Python `str.strip()`: drop leading and trailing whitespace. -/
def pyStrip (s : String) : String :=
  String.mk (((s.data.dropWhile isPyWS).reverse.dropWhile isPyWS).reverse)

/-- The `content` sub-object of a project item. -/
structure Content where
  body : Option String
  url : Option String
  repository : Option String
  number : Option Int
deriving DecidableEq

/-- One project item as read from the snapshot JSON. -/
structure Item where
  status : Option String
  title : Option String
  repository : Option String
  content : Option Content
deriving DecidableEq

/-- The list `STATUS_ORDER = ["Inbox", "Ready", "Doing", "Blocked", "Done"]`. -/
def STATUS_ORDER : List String := ["Inbox", "Ready", "Doing", "Blocked", "Done"]

/-- Function `normalize_status`: identity on the five named statuses, else `"(Unknown)"`
(falsy inputs fall to `"(Unknown)"` first via `st or "(Unknown)"`). -/
def normalize_status (st : Option String) : String :=
  let s := pyOr st "(Unknown)"
  if STATUS_ORDER.contains s then s else "(Unknown)"

/-- The six bucket keys with which both count maps are initialized. -/
def ALL_KEYS : List String := STATUS_ORDER ++ ["(Unknown)"]

/-- The zero-initialized count map `{s: 0 for s in STATUS_ORDER}` plus
`counts["(Unknown)"] = 0`, as an insertion-ordered association list. -/
def initCounts : List (String × Nat) := ALL_KEYS.map (fun s => (s, 0))

/-- Increment `m[k] += 1`: increments the entry for `k`, `none` when `k` is missing
(a Python `KeyError`). -/
def incr (k : String) : List (String × Nat) → Option (List (String × Nat))
  | [] => none
  | (k2, n) :: rest =>
    if k2 == k then some ((k2, n + 1) :: rest)
    else (incr k rest).map (fun m => (k2, n) :: m)

/-- Function `build_counts`: fold every item's normalized status into the map. -/
def build_counts (items : List Item) : Option (List (String × Nat)) :=
  items.foldlM (fun m it => incr (normalize_status it.status) m) initCounts

/-- Function `repo_key`: `(c.get("repository") or it.get("repository") or "").strip()`. -/
def repo_key (it : Item) : String :=
  pyStrip (pyOr (it.content.bind Content.repository) (pyOr it.repository ""))

/-- Key fallback `rk = repo_key(it) or "(unknown repo)"`. -/
def usedRepoKey (it : Item) : String :=
  let k := repo_key it
  if k == "" then "(unknown repo)" else k

/-- Lookup `.get(k, 0)` on a count map. -/
def cget (m : List (String × Nat)) (k : String) : Nat :=
  (m.lookup k).getD 0

/-- Item title via `it.get("title") or ""`. -/
def titleStr (it : Item) : String := pyOr it.title ""

/-- Item body via `((it.get("content") or ❰❱).get("body") or "")`. -/
def bodyStr (it : Item) : String := pyOr (it.content.bind Content.body) ""

/-- Item url via `((it.get("content") or ❰❱).get("url") or "")`. -/
def urlStr (it : Item) : String := pyOr (it.content.bind Content.url) ""

/-- The text searched by rule 3: `f"❰it.get('title','')❱\n❰c.get('body','')❱"`. -/
def itemText (it : Item) : String :=
  (it.title.getD "") ++ "\n" ++ ((it.content.bind Content.body).getD "")

/-! ### The regex `RE_NEXT = re.compile(r"^⏭\s*Next:", re.MULTILINE)` -/

/-- Match `⏭\s*Next:` at the head of `cs` (greedy `\s*` then literal `Next:`;
since `N` is not whitespace, greediness is equivalent to skipping the maximal
whitespace run). -/
def matchNextAt (cs : List Char) : Bool :=
  match cs with
  | [] => false
  | c :: rest => c == '⏭' && "Next:".data.isPrefixOf (rest.dropWhile isPyWS)

/-- Try the match just after every newline. -/
def searchNextAux : List Char → Bool
  | [] => false
  | c :: cs => (c == '\n' && matchNextAt cs) || searchNextAux cs

/-- Search `RE_NEXT.search(body)`: multiline `^` anchors at the start of the string
and after every `'\n'`. -/
def reNextSearch (s : String) : Bool :=
  matchNextAt s.data || searchNextAux s.data

/-! ### The regex `RE_P1 = re.compile(r"\bP1\b", re.IGNORECASE)` -/

/-- Word character for `\b` (ASCII fragment of Python `\w`). -/
def isWordChar (c : Char) : Bool := c.isAlphanum || c == '_'

/-- Boundary `\b` before a word character: start of text or a non-word predecessor. -/
def boundaryOk (prev : Option Char) : Bool :=
  match prev with
  | none => true
  | some p => !isWordChar p

/-- Match `P1` (case-insensitive) with word boundaries at the head of `cs`,
where `prev` is the character just before `cs` (if any). -/
def p1At (prev : Option Char) (cs : List Char) : Bool :=
  match cs with
  | c :: d :: rest =>
    (c == 'P' || c == 'p') && d == '1' && boundaryOk prev &&
      (match rest with
       | [] => true
       | r :: _ => !isWordChar r)
  | [c] =>
    -- a one-character tail can never hold the two-character token
    (c == 'P' && false)
  | [] => false

/-- Scan, remembering the previous character for the left boundary. -/
def reP1Aux (prev : Option Char) : List Char → Bool
  | [] => false
  | c :: cs => p1At prev (c :: cs) || reP1Aux (some c) cs

/-- Search `RE_P1.search(text)` as a Bool. -/
def reP1Search (s : String) : Bool := reP1Aux none s.data

/-! ### Violation messages (the exact f-strings of the source) -/

def wipMsg (n : Nat) : String :=
  "WIP超過: Doingが " ++ toString n ++ " 件（上限2）"

def blockedMsg (t u : String) : String :=
  "Blockedに⏭ Nextが無い: " ++ t ++ " (" ++ u ++ ")"

def p1Msg (n : Nat) : String :=
  "P1超過（推定）: P1が " ++ toString n ++ " 件（上限1）"

/-- Function `violations(items)`: rule 1 (WIP limit), then rule 2 (Blocked without a
next-step marker, one message per offending item in iteration order), then
rule 3 (P1 cap), appended into one list in that order. -/
def violations (items : List Item) : List String :=
  let doing := items.filter (fun it => normalize_status it.status == "Doing")
  let v1 := if doing.length > 2 then [wipMsg doing.length] else []
  let blocked := items.filter (fun it => normalize_status it.status == "Blocked")
  let v2 := blocked.filterMap (fun it =>
    if reNextSearch (bodyStr it) then none
    else some (blockedMsg (titleStr it) (urlStr it)))
  let p1 := (items.filter (fun it => reP1Search (itemText it))).length
  let v3 := if p1 > 1 then [p1Msg p1] else []
  v1 ++ v2 ++ v3

/-! ### Sorting -/

/-- Rank `order.get(st, 999)` where `order` maps each named status to its index. -/
def statusRank (s : String) : Nat :=
  match STATUS_ORDER.findIdx? (fun t => t == s) with
  | some i => i
  | none => 999

/-- Lexicographic `≤` on integer sequences. Python compares key tuples
lexicographically and strings by code points, so a key tuple flattened into
one integer sequence (fixed-arity numeric prefix, then the code points of
the final string component) compares exactly like the Python tuple. -/
def lexLe : List Int → List Int → Bool
  | [], _ => true
  | _ :: _, [] => false
  | x :: xs, y :: ys => decide (x < y) || (x == y && lexLe xs ys)

/-- The code points of a string, as integers. -/
def strCodes (s : String) : List Int := s.data.map (fun c => (c.toNat : Int))

/-- The sort key of `sort_items`: `(order.get(st, 999), it.get("title") or "")`,
flattened. -/
def itemKey (it : Item) : List Int :=
  (statusRank (normalize_status it.status) : Int) :: strCodes (titleStr it)

def itemLe (a b : Item) : Bool := lexLe (itemKey a) (itemKey b)

/-- Stable insertion: place `x` before the first element not strictly below
it. This is the characteristic behaviour of Python's stable `sorted`. -/
def insertBy (le : α → α → Bool) (x : α) : List α → List α
  | [] => [x]
  | y :: ys => if le x y then x :: y :: ys else y :: insertBy le x ys

/-- Stable sort by `le` (insertion sort; extensionally equal to Python's
stable `sorted` for a total preorder). -/
def insertionSort (le : α → α → Bool) : List α → List α
  | [] => []
  | x :: xs => insertBy le x (insertionSort le xs)

/-- Function `sort_items`. -/
def sort_items (items : List Item) : List Item :=
  insertionSort itemLe items

/-! ### Per-repository summary -/

/-- One entry of the repo summary list. -/
structure RepoSummary where
  repo : String
  counts : List (String × Nat)
  total : Nat
deriving DecidableEq

/-- The descending composite sort key of `build_repo_summary`:
`(-Unknown, -Blocked, -Doing, -total, repo)`, flattened. -/
def repoSortKey (r : RepoSummary) : List Int :=
  [-(cget r.counts "(Unknown)" : Int), -(cget r.counts "Blocked" : Int),
   -(cget r.counts "Doing" : Int), -(r.total : Int)] ++ strCodes r.repo

def repoLe (a b : RepoSummary) : Bool := lexLe (repoSortKey a) (repoSortKey b)

/-- One step of the accumulation loop of `build_repo_summary`: ensure the
repo's map exists (appending preserves dict insertion order), then
`acc[rk][st] += 1`. -/
def bumpRepo (rk st : String) :
    List (String × List (String × Nat)) → Option (List (String × List (String × Nat)))
  | [] => (incr st initCounts).map (fun m => [(rk, m)])
  | (k, m) :: rest =>
    if k == rk then (incr st m).map (fun m2 => (k, m2) :: rest)
    else (bumpRepo rk st rest).map (fun acc => (k, m) :: acc)

/-- Function `build_repo_summary`: accumulate per-repo counts in first-seen order,
attach `total = sum(m.values())`, then sort by the composite key. -/
def build_repo_summary (items : List Item) : Option (List RepoSummary) :=
  (items.foldlM (fun acc it =>
      bumpRepo (usedRepoKey it) (normalize_status it.status) acc) []).map
    (fun acc => insertionSort repoLe
      (acc.map (fun p => ⟨p.1, p.2, (p.2.map Prod.snd).sum⟩)))

/-- The report pipeline of `main` (lines 270–272): the violation list is
computed from the display-sorted items. -/
def buildReport (items : List Item) : List String :=
  violations (sort_items items)

/-! ### Named pieces of `violations`, for stating properties -/

/-- The rule-1 count: items whose normalized status is `Doing`. -/
def doingCount (items : List Item) : Nat :=
  (items.filter (fun it => normalize_status it.status == "Doing")).length

/-- The items rule 2 iterates over, in list order. -/
def blockedItems (items : List Item) : List Item :=
  items.filter (fun it => normalize_status it.status == "Blocked")

/-- The rule-2 messages, one per `Blocked` item without a next-step marker,
in iteration order. -/
def rule2Msgs (items : List Item) : List String :=
  (blockedItems items).filterMap (fun it =>
    if reNextSearch (bodyStr it) then none
    else some (blockedMsg (titleStr it) (urlStr it)))

/-- The rule-3 count: items whose searched text matches `RE_P1`. -/
def p1Count (items : List Item) : Nat :=
  (items.filter (fun it => reP1Search (itemText it))).length

/-! ### Declarative (spec-side) readings of the two regexes -/

/-- Spec-side reading of `RE_NEXT.search`: some position that is the start of
the text or directly preceded by a newline is followed by `'⏭'`, a run of
whitespace characters, and the literal `Next:`. Note there is no trimming of
leading whitespace before `'⏭'`. -/
def HasMarkerMatch (s : String) : Prop :=
  ∃ u v, s.data = u ++ v ∧ (u = [] ∨ u.getLast? = some '\n') ∧
    ∃ w r, v = '⏭' :: (w ++ ("Next:".data ++ r)) ∧ ∀ ch ∈ w, isPyWS ch = true

/-- Spec-side reading of `RE_P1.search`: the text contains `P1` or `p1` as a
standalone token, i.e. not preceded and not followed by a word character. -/
def HasP1Token (s : String) : Prop :=
  ∃ u c v, s.data = u ++ c :: '1' :: v ∧ (c = 'P' ∨ c = 'p') ∧
    (∀ p, u.getLast? = some p → isWordChar p = false) ∧
    (∀ r, v.head? = some r → isWordChar r = false)

/-! ### Concrete snapshots used in counterexamples and witnesses -/

/-- An item with only a status and a title. -/
def mkItem (st title : Option String) : Item := ⟨st, title, none, none⟩

/-- A `Blocked` item with a given title and body. -/
def mkBlocked (title body : String) : Item :=
  ⟨some "Blocked", some title, none, some ⟨some body, none, none, none⟩⟩

/-- An item with a status, title and top-level repository. -/
def mkRepoItem (st title repo : Option String) : Item := ⟨st, title, repo, none⟩

/-- An item whose `content.repository` is `" x "` (whitespace around the
name). -/
def paddedRepoItem : Item := ⟨none, some "t", none, some ⟨none, none, some " x ", none⟩⟩

/-! ## Lemmas about the lexicographic key order -/

theorem lexLe_refl (l : List Int) : lexLe l l = true := by
  induction l with
  | nil => rfl
  | cons x xs ih => simp [lexLe, ih]

theorem lexLe_total (a b : List Int) : lexLe a b = true ∨ lexLe b a = true := by
  induction a generalizing b with
  | nil => exact Or.inl rfl
  | cons x xs ih =>
    cases b with
    | nil => exact Or.inr rfl
    | cons y ys =>
      rcases lt_trichotomy x y with h | h | h
      · exact Or.inl (by simp [lexLe, h])
      · subst h
        rcases ih ys with h2 | h2
        · exact Or.inl (by simp [lexLe, h2])
        · exact Or.inr (by simp [lexLe, h2])
      · exact Or.inr (by simp [lexLe, h])

theorem lexLe_trans (a b c : List Int) (h1 : lexLe a b = true)
    (h2 : lexLe b c = true) : lexLe a c = true := by
  induction a generalizing b c with
  | nil => rfl
  | cons x xs ih =>
    cases b with
    | nil => simp [lexLe] at h1
    | cons y ys =>
      cases c with
      | nil => simp [lexLe] at h2
      | cons z zs =>
        simp only [lexLe, Bool.or_eq_true, Bool.and_eq_true, decide_eq_true_eq,
          beq_iff_eq] at h1 h2 ⊢
        rcases h1 with h1 | ⟨h1e, h1r⟩
        · rcases h2 with h2 | ⟨h2e, h2r⟩
          · exact Or.inl (lt_trans h1 h2)
          · exact Or.inl (h2e ▸ h1)
        · rcases h2 with h2 | ⟨h2e, h2r⟩
          · exact Or.inl (h1e ▸ h2)
          · exact Or.inr ⟨h1e.trans h2e, ih ys zs h1r h2r⟩

/-! ## Lemmas about the stable insertion sort -/

theorem insertBy_split {α : Type} (le : α → α → Bool) (x : α) (l : List α) :
    ∃ l1 l2, l = l1 ++ l2 ∧ insertBy le x l = l1 ++ x :: l2 ∧
      ∀ y ∈ l1, le x y = false := by
  induction l with
  | nil => exact ⟨[], [], rfl, rfl, by simp⟩
  | cons y ys ih =>
    by_cases h : le x y = true
    · exact ⟨[], y :: ys, rfl, by simp [insertBy, h], by simp⟩
    · obtain ⟨l1, l2, he, hi, hf⟩ := ih
      refine ⟨y :: l1, l2, by simp [he], ?_, ?_⟩
      · simpa [insertBy, h] using hi
      · intro z hz
        rcases List.mem_cons.mp hz with rfl | hz
        · exact Bool.not_eq_true _ ▸ h
        · exact hf z hz

theorem mem_insertBy {α : Type} (le : α → α → Bool) (x : α) (l : List α)
    (z : α) : z ∈ insertBy le x l ↔ z = x ∨ z ∈ l := by
  obtain ⟨l1, l2, he, hi, -⟩ := insertBy_split le x l
  subst he
  simp only [hi, List.mem_append, List.mem_cons]
  tauto

theorem insertBy_perm {α : Type} (le : α → α → Bool) (x : α) (l : List α) :
    List.Perm (insertBy le x l) (x :: l) := by
  obtain ⟨l1, l2, he, hi, -⟩ := insertBy_split le x l
  subst he
  rw [hi]
  exact List.perm_middle

theorem insertionSort_perm {α : Type} (le : α → α → Bool) (l : List α) :
    List.Perm (insertionSort le l) l := by
  induction l with
  | nil => exact List.Perm.refl _
  | cons x xs ih =>
    exact ((insertBy_perm le x _).trans (ih.cons x))

theorem insertBy_pairwise {α : Type} (le : α → α → Bool)
    (htot : ∀ a b, le a b = true ∨ le b a = true)
    (htrans : ∀ a b c, le a b = true → le b c = true → le a c = true)
    (x : α) (l : List α) (hl : l.Pairwise (fun a b => le a b = true)) :
    (insertBy le x l).Pairwise (fun a b => le a b = true) := by
  induction l with
  | nil => simp [insertBy]
  | cons y ys ih =>
    rcases List.pairwise_cons.mp hl with ⟨hy, hys⟩
    by_cases h : le x y = true
    · rw [insertBy, if_pos h]
      refine List.pairwise_cons.mpr ⟨?_, hl⟩
      intro z hz
      rcases List.mem_cons.mp hz with rfl | hz
      · exact h
      · exact htrans x y z h (hy z hz)
    · rw [insertBy, if_neg h]
      refine List.pairwise_cons.mpr ⟨?_, ih hys⟩
      intro z hz
      rcases (mem_insertBy le x ys z).mp hz with rfl | hz
      · rcases htot z y with h2 | h2
        · exact absurd h2 h
        · exact h2
      · exact hy z hz

theorem insertionSort_pairwise {α : Type} (le : α → α → Bool)
    (htot : ∀ a b, le a b = true ∨ le b a = true)
    (htrans : ∀ a b c, le a b = true → le b c = true → le a c = true)
    (l : List α) :
    (insertionSort le l).Pairwise (fun a b => le a b = true) := by
  induction l with
  | nil => simp [insertionSort]
  | cons x xs ih => exact insertBy_pairwise le htot htrans x _ ih

theorem insertionSort_eq_of_pairwise {α : Type} (le : α → α → Bool)
    (l : List α) (hl : l.Pairwise (fun a b => le a b = true)) :
    insertionSort le l = l := by
  induction l with
  | nil => rfl
  | cons x xs ih =>
    rcases List.pairwise_cons.mp hl with ⟨hx, hxs⟩
    rw [insertionSort, ih hxs]
    cases xs with
    | nil => rfl
    | cons y ys => rw [insertBy, if_pos (hx y (List.mem_cons_self y ys))]

theorem insertionSort_idem {α : Type} (le : α → α → Bool)
    (htot : ∀ a b, le a b = true ∨ le b a = true)
    (htrans : ∀ a b c, le a b = true → le b c = true → le a c = true)
    (l : List α) :
    insertionSort le (insertionSort le l) = insertionSort le l :=
  insertionSort_eq_of_pairwise le _ (insertionSort_pairwise le htot htrans l)

theorem insertionSort_filter_keyEq {α κ : Type} [DecidableEq κ]
    (le : α → α → Bool) (k : α → κ)
    (hk : ∀ a b, k a = k b → le a b = true)
    (v : κ) (l : List α) :
    (insertionSort le l).filter (fun a => decide (k a = v)) =
      l.filter (fun a => decide (k a = v)) := by
  induction l with
  | nil => rfl
  | cons x xs ih =>
    obtain ⟨l1, l2, he, hi, hf⟩ := insertBy_split le x (insertionSort le xs)
    have hsplit : (insertionSort le xs).filter (fun a => decide (k a = v)) =
        l1.filter (fun a => decide (k a = v)) ++
          l2.filter (fun a => decide (k a = v)) := by
      rw [he, List.filter_append]
    rw [insertionSort, hi, List.filter_append, List.filter_cons, List.filter_cons]
    by_cases hx : k x = v
    · have hl1 : l1.filter (fun a => decide (k a = v)) = [] := by
        apply List.filter_eq_nil_iff.mpr
        intro y hy
        simp only [decide_eq_true_eq]
        intro hyv
        have hle : le x y = true := hk x y (hx.trans hyv.symm)
        rw [hf y hy] at hle
        exact Bool.false_ne_true hle
      have hl2 : l2.filter (fun a => decide (k a = v)) =
          xs.filter (fun a => decide (k a = v)) := by
        have h2 := ih
        rw [hsplit, hl1, List.nil_append] at h2
        exact h2
      rw [hl1, List.nil_append, hl2]
    · simp only [decide_eq_true_eq, if_neg hx]
      rw [← ih, hsplit]

/-! ## The two concrete orders are total preorders -/

theorem itemLe_total (a b : Item) : itemLe a b = true ∨ itemLe b a = true :=
  lexLe_total (itemKey a) (itemKey b)

theorem itemLe_trans (a b c : Item) (h1 : itemLe a b = true)
    (h2 : itemLe b c = true) : itemLe a c = true :=
  lexLe_trans (itemKey a) (itemKey b) (itemKey c) h1 h2

theorem itemLe_of_key_eq (a b : Item) (h : itemKey a = itemKey b) :
    itemLe a b = true := by
  unfold itemLe
  rw [h]
  exact lexLe_refl _

theorem repoLe_total (a b : RepoSummary) : repoLe a b = true ∨ repoLe b a = true :=
  lexLe_total (repoSortKey a) (repoSortKey b)

theorem repoLe_trans (a b c : RepoSummary) (h1 : repoLe a b = true)
    (h2 : repoLe b c = true) : repoLe a c = true :=
  lexLe_trans (repoSortKey a) (repoSortKey b) (repoSortKey c) h1 h2

/-! ## The normalizer lands in the six bucket keys -/

theorem normalize_mem (st : Option String) : normalize_status st ∈ ALL_KEYS := by
  unfold normalize_status
  by_cases h : STATUS_ORDER.contains (pyOr st "(Unknown)")
  · rw [if_pos h]
    exact List.mem_append_left _ (List.elem_iff.mp h)
  · rw [if_neg h]
    simp [ALL_KEYS]

/-! ## Counting lemmas -/

theorem incr_spec (k : String) (m : List (String × Nat))
    (hm : k ∈ m.map Prod.fst) :
    ∃ m2, incr k m = some m2 ∧ m2.map Prod.fst = m.map Prod.fst ∧
      (m2.map Prod.snd).sum = (m.map Prod.snd).sum + 1 := by
  induction m with
  | nil => simp at hm
  | cons p rest ih =>
    obtain ⟨k2, n⟩ := p
    by_cases h : k2 = k
    · refine ⟨(k2, n + 1) :: rest, ?_, by simp, by simp; omega⟩
      simp [incr, h]
    · have hk : k ∈ rest.map Prod.fst := by
        rw [List.map_cons] at hm
        rcases List.mem_cons.mp hm with h2 | h2
        · exact absurd h2.symm h
        · exact h2
      obtain ⟨m2, hi, hkeys, hsum⟩ := ih hk
      refine ⟨(k2, n) :: m2, ?_, by simp [hkeys], by simp at hsum ⊢; omega⟩
      simp [incr, h, hi]

theorem build_counts_fold (items : List Item) (m : List (String × Nat))
    (hm : m.map Prod.fst = ALL_KEYS) :
    ∃ m2,
      items.foldlM (fun m it => incr (normalize_status it.status) m) m = some m2 ∧
      m2.map Prod.fst = ALL_KEYS ∧
      (m2.map Prod.snd).sum = (m.map Prod.snd).sum + items.length := by
  induction items generalizing m with
  | nil => exact ⟨m, rfl, hm, by simp⟩
  | cons it rest ih =>
    have hk : normalize_status it.status ∈ m.map Prod.fst := by
      rw [hm]; exact normalize_mem _
    obtain ⟨m1, hi, hkeys, hsum⟩ := incr_spec _ m hk
    obtain ⟨m2, hf, hkeys2, hsum2⟩ := ih m1 (hkeys.trans hm)
    refine ⟨m2, ?_, hkeys2, by rw [hsum2, hsum]; simp; omega⟩
    rw [List.foldlM_cons, hi]
    exact hf

theorem build_counts_spec (items : List Item) :
    ∃ m, build_counts items = some m ∧ m.map Prod.fst = ALL_KEYS ∧
      (m.map Prod.snd).sum = items.length := by
  obtain ⟨m, hf, hkeys, hsum⟩ := build_counts_fold items initCounts (by decide)
  refine ⟨m, hf, hkeys, ?_⟩
  have h0 : (initCounts.map Prod.snd).sum = 0 := by decide
  rw [hsum, h0]
  omega

/-! ## Per-repository accumulator lemmas -/

theorem bumpRepo_spec (rk st : String) (hst : st ∈ ALL_KEYS)
    (acc : List (String × List (String × Nat)))
    (hacc : ∀ p ∈ acc, p.2.map Prod.fst = ALL_KEYS) :
    ∃ acc2, bumpRepo rk st acc = some acc2 ∧
      (∀ p ∈ acc2, p.2.map Prod.fst = ALL_KEYS) ∧
      acc2.map Prod.fst =
        (if rk ∈ acc.map Prod.fst then acc.map Prod.fst
         else acc.map Prod.fst ++ [rk]) ∧
      (acc2.map (fun p => (p.2.map Prod.snd).sum)).sum =
        (acc.map (fun p => (p.2.map Prod.snd).sum)).sum + 1 := by
  induction acc with
  | nil =>
    obtain ⟨m2, hi, hkeys, hsum⟩ := incr_spec st initCounts (by rwa [show initCounts.map Prod.fst = ALL_KEYS by decide])
    refine ⟨[(rk, m2)], ?_, ?_, by simp, ?_⟩
    · simp [bumpRepo, hi]
    · intro p hp
      rcases List.mem_singleton.mp hp with rfl
      exact hkeys.trans (by decide)
    · have h0 : (initCounts.map Prod.snd).sum = 0 := by decide
      simp at hsum ⊢
      omega
  | cons p rest ih =>
    obtain ⟨k, m⟩ := p
    by_cases h : k = rk
    · subst h
      obtain ⟨m2, hi, hkeys, hsum⟩ := incr_spec st m (by rw [hacc (k, m) (List.mem_cons_self _ _)]; exact hst)
      refine ⟨(k, m2) :: rest, ?_, ?_, ?_, ?_⟩
      · simp [bumpRepo, hi]
      · intro q hq
        rcases List.mem_cons.mp hq with rfl | hq
        · exact hkeys.trans (hacc (k, m) (List.mem_cons_self _ _))
        · exact hacc q (List.mem_cons_of_mem _ hq)
      · simp
      · simp at hsum ⊢; omega
    · obtain ⟨acc2, hb, hacc2, hkeys2, hsum2⟩ :=
        ih (fun q hq => hacc q (List.mem_cons_of_mem _ hq))
      refine ⟨(k, m) :: acc2, ?_, ?_, ?_, ?_⟩
      · simp only [bumpRepo]
        rw [if_neg (by simpa using fun h2 => h h2), hb]
        rfl
      · intro q hq
        rcases List.mem_cons.mp hq with rfl | hq
        · exact hacc (k, m) (List.mem_cons_self _ _)
        · exact hacc2 q hq
      · by_cases hmem : rk ∈ rest.map Prod.fst
        · rw [if_pos hmem] at hkeys2
          have : rk ∈ ((k, m) :: rest).map Prod.fst := by
            simp [hmem]
          rw [if_pos this]
          simp [hkeys2]
        · rw [if_neg hmem] at hkeys2
          have : ¬ rk ∈ ((k, m) :: rest).map Prod.fst := by
            simp only [List.map_cons, List.mem_cons]
            rintro (h2 | h2)
            · exact h h2.symm
            · exact hmem h2
          rw [if_neg this]
          simp [hkeys2]
      · simp at hsum2 ⊢; omega

theorem repo_fold_spec (items : List Item)
    (acc : List (String × List (String × Nat)))
    (hacc : ∀ p ∈ acc, p.2.map Prod.fst = ALL_KEYS) :
    ∃ acc2,
      items.foldlM (fun acc it =>
          bumpRepo (usedRepoKey it) (normalize_status it.status) acc) acc = some acc2 ∧
      (∀ p ∈ acc2, p.2.map Prod.fst = ALL_KEYS) ∧
      (acc2.map (fun p => (p.2.map Prod.snd).sum)).sum =
        (acc.map (fun p => (p.2.map Prod.snd).sum)).sum + items.length ∧
      ((acc.map Prod.fst).Nodup → (acc2.map Prod.fst).Nodup) ∧
      (∀ x ∈ acc.map Prod.fst, x ∈ acc2.map Prod.fst) ∧
      (∀ it ∈ items, usedRepoKey it ∈ acc2.map Prod.fst) := by
  induction items generalizing acc with
  | nil => exact ⟨acc, rfl, hacc, by simp, fun h => h, fun x hx => hx, by simp⟩
  | cons it rest ih =>
    obtain ⟨acc1, hb, hacc1, hkeys1, hsum1⟩ :=
      bumpRepo_spec (usedRepoKey it) _ (normalize_mem _) acc hacc
    obtain ⟨acc2, hf, hacc2, hsum2, hnd2, hmono2, hitems2⟩ := ih acc1 hacc1
    have hstep : ∀ x ∈ acc.map Prod.fst, x ∈ acc1.map Prod.fst := by
      intro x hx
      rw [hkeys1]
      by_cases hmem : usedRepoKey it ∈ acc.map Prod.fst
      · rwa [if_pos hmem]
      · rw [if_neg hmem]
        exact List.mem_append_left _ hx
    have hself : usedRepoKey it ∈ acc1.map Prod.fst := by
      rw [hkeys1]
      by_cases hmem : usedRepoKey it ∈ acc.map Prod.fst
      · rwa [if_pos hmem]
      · rw [if_neg hmem]
        exact List.mem_append_right _ (List.mem_singleton_self _)
    refine ⟨acc2, ?_, hacc2, ?_, ?_, ?_, ?_⟩
    · rw [List.foldlM_cons, hb]
      exact hf
    · rw [hsum2, hsum1]
      simp
      omega
    · intro hnd
      apply hnd2
      by_cases hmem : usedRepoKey it ∈ acc.map Prod.fst
      · rwa [hkeys1, if_pos hmem]
      · rw [hkeys1, if_neg hmem]
        simp [List.nodup_append, hnd, hmem]
    · exact fun x hx => hmono2 x (hstep x hx)
    · intro it2 hit2
      rcases List.mem_cons.mp hit2 with rfl | hit2
      · exact hmono2 _ hself
      · exact hitems2 it2 hit2

theorem build_repo_summary_spec (items : List Item) :
    ∃ rs, build_repo_summary items = some rs ∧
      (∀ r ∈ rs, r.counts.map Prod.fst = ALL_KEYS ∧
        (r.counts.map Prod.snd).sum = r.total) ∧
      (rs.map RepoSummary.total).sum = items.length ∧
      rs.Pairwise (fun a b => repoLe a b = true) ∧
      (rs.map RepoSummary.repo).Nodup ∧
      (∀ it ∈ items, usedRepoKey it ∈ rs.map RepoSummary.repo) := by
  obtain ⟨acc2, hf, hacc2, hsum2, hnd2, hmono2, hitems2⟩ :=
    repo_fold_spec items [] (by simp)
  refine ⟨insertionSort repoLe
    (acc2.map (fun p => RepoSummary.mk p.1 p.2 ((p.2.map Prod.snd).sum))), ?_, ?_, ?_, ?_, ?_, ?_⟩
  · unfold build_repo_summary
    rw [hf]
    rfl
  · intro r hr
    have hr2 := (insertionSort_perm repoLe _).mem_iff.mp hr
    obtain ⟨p, hp, rfl⟩ := List.mem_map.mp hr2
    exact ⟨hacc2 p hp, rfl⟩
  · have hperm := (insertionSort_perm repoLe
      (acc2.map (fun p => RepoSummary.mk p.1 p.2 ((p.2.map Prod.snd).sum)))).map RepoSummary.total
    rw [hperm.sum_eq, List.map_map]
    simpa using hsum2
  · exact insertionSort_pairwise repoLe repoLe_total repoLe_trans _
  · have hperm := (insertionSort_perm repoLe
      (acc2.map (fun p => RepoSummary.mk p.1 p.2 ((p.2.map Prod.snd).sum)))).map RepoSummary.repo
    rw [hperm.nodup_iff, List.map_map]
    simpa using hnd2 (by simp)
  · intro it hit
    have hperm := (insertionSort_perm repoLe
      (acc2.map (fun p => RepoSummary.mk p.1 p.2 ((p.2.map Prod.snd).sum)))).map RepoSummary.repo
    rw [hperm.mem_iff, List.map_map]
    simpa using hitems2 it hit

/-! ## The three violation messages are pairwise distinct -/

theorem wipMsg_head (n : Nat) : (wipMsg n).data.head? = some 'W' := by
  unfold wipMsg
  rw [String.data_append, String.data_append]
  rfl

theorem blockedMsg_head (t u : String) : (blockedMsg t u).data.head? = some 'B' := by
  unfold blockedMsg
  rw [String.data_append, String.data_append, String.data_append]
  rfl

theorem p1Msg_head (n : Nat) : (p1Msg n).data.head? = some 'P' := by
  unfold p1Msg
  rw [String.data_append, String.data_append]
  rfl

theorem wipMsg_ne_blockedMsg (n : Nat) (t u : String) : wipMsg n ≠ blockedMsg t u := by
  intro h
  have h2 : (wipMsg n).data.head? = (blockedMsg t u).data.head? := by rw [h]
  rw [wipMsg_head, blockedMsg_head] at h2
  simp at h2

theorem wipMsg_ne_p1Msg (n m : Nat) : wipMsg n ≠ p1Msg m := by
  intro h
  have h2 : (wipMsg n).data.head? = (p1Msg m).data.head? := by rw [h]
  rw [wipMsg_head, p1Msg_head] at h2
  simp at h2

theorem blockedMsg_ne_p1Msg (t u : String) (m : Nat) : blockedMsg t u ≠ p1Msg m := by
  intro h
  have h2 : (blockedMsg t u).data.head? = (p1Msg m).data.head? := by rw [h]
  rw [blockedMsg_head, p1Msg_head] at h2
  simp at h2

/-! ## Decomposition of `violations` into its three rule segments -/

theorem violations_decomp (items : List Item) :
    violations items =
      (if doingCount items > 2 then [wipMsg (doingCount items)] else []) ++
        (rule2Msgs items ++
          (if p1Count items > 1 then [p1Msg (p1Count items)] else [])) := by
  simp only [violations, doingCount, rule2Msgs, blockedItems, p1Count, List.append_assoc]

theorem rule2Msgs_shape (items : List Item) (x : String) (hx : x ∈ rule2Msgs items) :
    ∃ it, it ∈ blockedItems items ∧ reNextSearch (bodyStr it) = false ∧
      x = blockedMsg (titleStr it) (urlStr it) := by
  obtain ⟨it, hit, hsome⟩ := List.mem_filterMap.mp hx
  by_cases h : reNextSearch (bodyStr it) = true
  · rw [if_pos h] at hsome
    cases hsome
  · rw [if_neg h] at hsome
    exact ⟨it, hit, Bool.not_eq_true _ ▸ h, (Option.some_inj.mp hsome).symm⟩

/-! ## `RE_NEXT`: the scanner agrees with the declarative reading -/

theorem dropWhile_append_all (p : Char → Bool) (w t : List Char)
    (hw : ∀ ch ∈ w, p ch = true) : (w ++ t).dropWhile p = t.dropWhile p := by
  induction w with
  | nil => rfl
  | cons a as ih =>
    rw [List.cons_append, List.dropWhile_cons, if_pos (hw a (List.mem_cons_self a as))]
    exact ih (fun ch hch => hw ch (List.mem_cons_of_mem a hch))

theorem matchNextAt_iff (cs : List Char) :
    matchNextAt cs = true ↔
      ∃ w r, cs = '⏭' :: (w ++ ("Next:".data ++ r)) ∧ ∀ ch ∈ w, isPyWS ch = true := by
  cases cs with
  | nil => simp [matchNextAt]
  | cons c rest =>
    simp only [matchNextAt, Bool.and_eq_true, beq_iff_eq]
    constructor
    · rintro ⟨rfl, hp⟩
      obtain ⟨r, hr⟩ := List.isPrefixOf_iff_prefix.mp hp
      refine ⟨rest.takeWhile isPyWS, r, ?_, fun ch hch => List.mem_takeWhile_imp hch⟩
      have hsplit : rest = rest.takeWhile isPyWS ++ rest.dropWhile isPyWS :=
        (List.takeWhile_append_dropWhile isPyWS rest).symm
      rw [← hr] at hsplit
      rw [← hsplit]
    · rintro ⟨w, r, heq, hw⟩
      injection heq with h1 h2
      subst h1
      subst h2
      refine ⟨rfl, ?_⟩
      rw [dropWhile_append_all isPyWS w _ hw]
      have hN : ("Next:".data ++ r).dropWhile isPyWS = "Next:".data ++ r := by
        rw [show ("Next:".data) = 'N' :: "ext:".data from rfl, List.cons_append,
          List.dropWhile_cons, if_neg (by decide)]
      rw [hN]
      exact List.isPrefixOf_iff_prefix.mpr (List.prefix_append _ _)

theorem searchNextAux_iff (l : List Char) :
    searchNextAux l = true ↔
      ∃ u v, l = u ++ v ∧ u.getLast? = some '\n' ∧ matchNextAt v = true := by
  induction l with
  | nil =>
    simp only [searchNextAux]
    constructor
    · intro h
      cases h
    · rintro ⟨u, v, heq, hl, -⟩
      rcases List.append_eq_nil.mp heq.symm with ⟨rfl, rfl⟩
      cases hl
  | cons a tl ih =>
    simp only [searchNextAux, Bool.or_eq_true, Bool.and_eq_true, beq_iff_eq]
    constructor
    · rintro (⟨rfl, hm⟩ | h)
      · exact ⟨['\n'], tl, rfl, rfl, hm⟩
      · obtain ⟨u, v, heq, hl, hm⟩ := ih.mp h
        have hu : u ≠ [] := by
          intro h0
          rw [h0] at hl
          cases hl
        refine ⟨a :: u, v, by rw [List.cons_append, heq], ?_, hm⟩
        cases u with
        | nil => exact absurd rfl hu
        | cons b bs => rw [List.getLast?_cons_cons]; exact hl
    · rintro ⟨u, v, heq, hl, hm⟩
      cases u with
      | nil => cases hl
      | cons a' u' =>
        rw [List.cons_append] at heq
        injection heq with h1 h2
        subst h1
        cases u' with
        | nil =>
          simp only [List.getLast?_singleton, Option.some_inj] at hl
          subst hl
          rw [List.nil_append] at h2
          subst h2
          exact Or.inl ⟨rfl, hm⟩
        | cons b bs =>
          rw [List.getLast?_cons_cons] at hl
          exact Or.inr (ih.mpr ⟨b :: bs, v, h2, hl, hm⟩)

theorem reNextSearch_iff (s : String) : reNextSearch s = true ↔ HasMarkerMatch s := by
  unfold reNextSearch HasMarkerMatch
  simp only [Bool.or_eq_true]
  constructor
  · rintro (h1 | h1)
    · obtain ⟨w, r, heq, hw⟩ := (matchNextAt_iff s.data).mp h1
      exact ⟨[], s.data, rfl, Or.inl rfl, w, r, heq, hw⟩
    · obtain ⟨u, v, heq, hl, hm⟩ := (searchNextAux_iff s.data).mp h1
      obtain ⟨w, r, hv, hw⟩ := (matchNextAt_iff v).mp hm
      exact ⟨u, v, heq, Or.inr hl, w, r, hv, hw⟩
  · rintro ⟨u, v, heq, hl | hl, w, r, hv, hw⟩
    · subst hl
      rw [List.nil_append] at heq
      exact Or.inl ((matchNextAt_iff s.data).mpr ⟨w, r, by rw [heq, hv], hw⟩)
    · exact Or.inr ((searchNextAux_iff s.data).mpr
        ⟨u, v, heq, hl, (matchNextAt_iff v).mpr ⟨w, r, hv, hw⟩⟩)

/-! ## `RE_P1`: the scanner agrees with the declarative reading -/

theorem getLast?_cons_or (a : Char) (u : List Char) (prev : Option Char) :
    ((a :: u).getLast?).or prev = (u.getLast?).or (some a) := by
  cases u with
  | nil => rfl
  | cons b bs =>
    rw [List.getLast?_cons_cons]
    cases h : (b :: bs).getLast? with
    | none => simp at h
    | some x => rfl

theorem p1At_iff (prev : Option Char) (l : List Char) :
    p1At prev l = true ↔
      ∃ c v, l = c :: '1' :: v ∧ (c = 'P' ∨ c = 'p') ∧ boundaryOk prev = true ∧
        (∀ r, v.head? = some r → isWordChar r = false) := by
  match l with
  | [] => simp [p1At]
  | [c] => simp [p1At]
  | c :: d :: rest =>
    simp only [p1At, Bool.and_eq_true, Bool.or_eq_true, beq_iff_eq]
    constructor
    · rintro ⟨⟨⟨hc, hd⟩, hb⟩, hr⟩
      subst hd
      refine ⟨c, rest, rfl, hc, hb, ?_⟩
      intro r h
      cases rest with
      | nil => cases h
      | cons r0 rs =>
        have hr0 : r0 = r := by simpa using h
        subst hr0
        simpa using hr
    · rintro ⟨c', v, heq, hc, hb, hr⟩
      injection heq with h1 h2
      injection h2 with h2a h2b
      subst h1
      subst h2a
      subst h2b
      refine ⟨⟨⟨hc, rfl⟩, hb⟩, ?_⟩
      cases rest with
      | nil => rfl
      | cons r0 rs => simpa using hr r0 rfl

theorem reP1Aux_iff (prev : Option Char) (l : List Char) :
    reP1Aux prev l = true ↔
      ∃ u c v, l = u ++ c :: '1' :: v ∧ (c = 'P' ∨ c = 'p') ∧
        boundaryOk ((u.getLast?).or prev) = true ∧
        (∀ r, v.head? = some r → isWordChar r = false) := by
  induction l generalizing prev with
  | nil =>
    simp only [reP1Aux]
    constructor
    · intro h
      cases h
    · rintro ⟨u, c, v, heq, -, -, -⟩
      rcases List.append_eq_nil.mp heq.symm with ⟨rfl, h2⟩
      cases h2
  | cons a tl ih =>
    simp only [reP1Aux, Bool.or_eq_true]
    constructor
    · rintro (h1 | h1)
      · obtain ⟨c, v, heq, hc, hb, hr⟩ := (p1At_iff prev (a :: tl)).mp h1
        exact ⟨[], c, v, heq, hc, hb, hr⟩
      · obtain ⟨u, c, v, heq, hc, hb, hr⟩ := (ih (some a)).mp h1
        refine ⟨a :: u, c, v, ?_, hc, ?_, hr⟩
        · rw [List.cons_append, ← heq]
        · rw [getLast?_cons_or]
          exact hb
    · rintro ⟨u, c, v, heq, hc, hb, hr⟩
      cases u with
      | nil =>
        rw [List.nil_append] at heq
        exact Or.inl ((p1At_iff prev (a :: tl)).mpr ⟨c, v, heq, hc, hb, hr⟩)
      | cons a' u' =>
        rw [List.cons_append] at heq
        injection heq with h1 h2
        subst h1
        refine Or.inr ((ih (some a)).mpr ⟨u', c, v, h2, hc, ?_, hr⟩)
        rw [← getLast?_cons_or a u' prev]
        exact hb

theorem reP1Search_iff (s : String) : reP1Search s = true ↔ HasP1Token s := by
  unfold reP1Search HasP1Token
  rw [reP1Aux_iff]
  constructor
  · rintro ⟨u, c, v, heq, hc, hb, hr⟩
    refine ⟨u, c, v, heq, hc, ?_, hr⟩
    intro p hp
    rw [Option.or_none, hp] at hb
    simpa [boundaryOk] using hb
  · rintro ⟨u, c, v, heq, hc, hl, hr⟩
    refine ⟨u, c, v, heq, hc, ?_, hr⟩
    rw [Option.or_none]
    cases h : u.getLast? with
    | none => rfl
    | some p => simpa [boundaryOk] using hl p h

/-! ## Remaining shared lemmas -/

theorem statusRank_not_mem (s : String) (hs : ¬ s ∈ STATUS_ORDER) :
    statusRank s = 999 := by
  simp only [STATUS_ORDER, List.mem_cons, not_or] at hs
  obtain ⟨h1, h2, h3, h4, h5⟩ := hs
  have e1 : ("Inbox" == s) = false := beq_eq_false_iff_ne.mpr (fun h => h1 h.symm)
  have e2 : ("Ready" == s) = false := beq_eq_false_iff_ne.mpr (fun h => h2 h.symm)
  have e3 : ("Doing" == s) = false := beq_eq_false_iff_ne.mpr (fun h => h3 h.symm)
  have e4 : ("Blocked" == s) = false := beq_eq_false_iff_ne.mpr (fun h => h4 h.symm)
  have e5 : ("Done" == s) = false :=
    beq_eq_false_iff_ne.mpr (fun h => by simp at h5; exact h5 h.symm)
  simp [statusRank, STATUS_ORDER, List.findIdx?_cons, e1, e2, e3, e4, e5]

theorem strCodes_inj (s t : String) (h : strCodes s = strCodes t) : s = t := by
  apply String.ext
  apply List.map_injective_iff.mpr ?_ h
  intro c d hcd
  have hn : c.toNat = d.toNat := Int.ofNat_inj.mp hcd
  exact Char.eq_of_val_eq (UInt32.ext hn)

theorem wipMsg_not_mem_rule2 (items : List Item) (n : Nat) :
    wipMsg n ∉ rule2Msgs items := by
  intro h
  obtain ⟨it, -, -, heq⟩ := rule2Msgs_shape items _ h
  exact wipMsg_ne_blockedMsg n _ _ heq

theorem p1Msg_not_mem_rule2 (items : List Item) (n : Nat) :
    p1Msg n ∉ rule2Msgs items := by
  intro h
  obtain ⟨it, -, -, heq⟩ := rule2Msgs_shape items _ h
  exact blockedMsg_ne_p1Msg _ _ n heq.symm

/-! ## Claim theorems -/

/-- C3: `sort_items` returns a new sequence (a permutation of the input)
totally ordered by the composite key (status rank, then title, absent title
as empty string, unrecognized statuses ranked 999, strictly after Done = 4);
the sort is stable (equal-key items keep their relative order) and
idempotent. -/
theorem claim_C3 (l : List Item) :
    (sort_items l).Perm l ∧
    (sort_items l).Pairwise (fun a b => itemLe a b = true) ∧
    (∀ v : List Int, (sort_items l).filter (fun a => decide (itemKey a = v)) =
      l.filter (fun a => decide (itemKey a = v))) ∧
    sort_items (sort_items l) = sort_items l ∧
    (∀ s : String, ¬ s ∈ STATUS_ORDER → statusRank s = 999) ∧
    statusRank "Inbox" = 0 ∧ statusRank "Ready" = 1 ∧ statusRank "Doing" = 2 ∧
    statusRank "Blocked" = 3 ∧ statusRank "Done" = 4 ∧ 4 < 999 ∧
    (∀ it : Item, it.title = none → titleStr it = "") ∧
    (∀ a b : Item, itemKey a = itemKey b ↔
      (statusRank (normalize_status a.status) = statusRank (normalize_status b.status) ∧
        titleStr a = titleStr b)) := by
  refine ⟨insertionSort_perm itemLe l,
    insertionSort_pairwise itemLe itemLe_total itemLe_trans l,
    fun v => insertionSort_filter_keyEq itemLe itemKey itemLe_of_key_eq v l,
    insertionSort_idem itemLe itemLe_total itemLe_trans l,
    statusRank_not_mem, by decide, by decide, by decide, by decide, by decide, by decide,
    ?_, ?_⟩
  · intro it h
    simp [titleStr, pyOr, h]
  · intro a b
    constructor
    · intro h
      unfold itemKey at h
      injection h with h1 h2
      exact ⟨Int.ofNat_inj.mp h1, strCodes_inj _ _ h2⟩
    · rintro ⟨h1, h2⟩
      unfold itemKey
      rw [h1, h2]

/-- C3 witness: the theorem applied at a concrete input, discharging the
hypothesis of the unrecognized-status conjunct. -/
theorem claim_C3_witness :
    ¬ "inbox" ∈ STATUS_ORDER ∧ statusRank "inbox" = 999 :=
  ⟨by decide, (claim_C3 []).2.2.2.2.1 "inbox" (by decide)⟩

/-- C4: the global count map has exactly the six bucket keys and its values
sum to the number of items; every per-repository summary's bucket values sum
to its `total`, and the repository totals sum to the number of items. -/
theorem claim_C4 (items : List Item) :
    ∃ m rs, build_counts items = some m ∧ m.map Prod.fst = ALL_KEYS ∧
      (m.map Prod.snd).sum = items.length ∧
      build_repo_summary items = some rs ∧
      (∀ r ∈ rs, r.counts.map Prod.fst = ALL_KEYS ∧
        (r.counts.map Prod.snd).sum = r.total) ∧
      (rs.map RepoSummary.total).sum = items.length := by
  obtain ⟨m, h1, h2, h3⟩ := build_counts_spec items
  obtain ⟨rs, h4, h5, h6, -, -, -⟩ := build_repo_summary_spec items
  exact ⟨m, rs, h1, h2, h3, h4, h5, h6⟩

/-- C4 witness: the theorem applied at a concrete two-item snapshot. -/
theorem claim_C4_witness :
    ∃ m rs,
      build_counts [mkItem (some "Doing") (some "a"), mkItem none (some "b")] = some m ∧
      m.map Prod.fst = ALL_KEYS ∧
      (m.map Prod.snd).sum =
        [mkItem (some "Doing") (some "a"), mkItem none (some "b")].length ∧
      build_repo_summary [mkItem (some "Doing") (some "a"), mkItem none (some "b")] = some rs ∧
      (∀ r ∈ rs, r.counts.map Prod.fst = ALL_KEYS ∧
        (r.counts.map Prod.snd).sum = r.total) ∧
      (rs.map RepoSummary.total).sum =
        [mkItem (some "Doing") (some "a"), mkItem none (some "b")].length :=
  claim_C4 [mkItem (some "Doing") (some "a"), mkItem none (some "b")]

/-- C5: the repository summary list is sorted by the composite key
(Unknown desc, Blocked desc, Doing desc, total desc, repo name asc); in
particular a repo with Unknown=1, total=1 ranks above one with Blocked=2,
total=2. -/
theorem claim_C5 (items : List Item) :
    (∃ rs, build_repo_summary items = some rs ∧
      rs.Pairwise (fun a b => repoLe a b = true)) ∧
    Option.map (List.map RepoSummary.repo)
      (build_repo_summary
        [mkRepoItem (some "Blocked") (some "t2") (some "r2"),
         mkRepoItem (some "Blocked") (some "t3") (some "r2"),
         mkRepoItem none (some "t1") (some "r1")]) = some ["r1", "r2"] ∧
    Option.map (List.map RepoSummary.total)
      (build_repo_summary
        [mkRepoItem (some "Blocked") (some "t2") (some "r2"),
         mkRepoItem (some "Blocked") (some "t3") (some "r2"),
         mkRepoItem none (some "t1") (some "r1")]) = some [1, 2] ∧
    Option.map (List.map (fun r => cget r.counts "(Unknown)"))
      (build_repo_summary
        [mkRepoItem (some "Blocked") (some "t2") (some "r2"),
         mkRepoItem (some "Blocked") (some "t3") (some "r2"),
         mkRepoItem none (some "t1") (some "r1")]) = some [1, 0] ∧
    Option.map (List.map (fun r => cget r.counts "Blocked"))
      (build_repo_summary
        [mkRepoItem (some "Blocked") (some "t2") (some "r2"),
         mkRepoItem (some "Blocked") (some "t3") (some "r2"),
         mkRepoItem none (some "t1") (some "r1")]) = some [0, 2] := by
  refine ⟨?_, by decide, by decide, by decide, by decide⟩
  obtain ⟨rs, h1, -, -, h4, -, -⟩ := build_repo_summary_spec items
  exact ⟨rs, h1, h4⟩

/-- C6: `normalize_status` is the identity on the five named statuses
(case-sensitively) and yields `"(Unknown)"` for every other input —
null, the empty string, whitespace variants, case variants — all of which
therefore normalize (and count) identically. -/
theorem claim_C6 :
    (∀ s, s ∈ STATUS_ORDER → normalize_status (some s) = s) ∧
    (∀ s : String, ¬ s ∈ STATUS_ORDER → normalize_status (some s) = "(Unknown)") ∧
    normalize_status none = "(Unknown)" ∧
    normalize_status (some "") = "(Unknown)" ∧
    normalize_status (some "inbox") = "(Unknown)" ∧
    normalize_status (some " Inbox") = "(Unknown)" ∧
    normalize_status (some "Inbox ") = "(Unknown)" ∧
    (∀ st st' : Option String,
      normalize_status st = "(Unknown)" → normalize_status st' = "(Unknown)" →
      normalize_status st = normalize_status st') := by
  refine ⟨?_, ?_, by decide, by decide, by decide, by decide, by decide, ?_⟩
  · intro s hs
    have hne : (s == "") = false := beq_eq_false_iff_ne.mpr (fun h0 => by
      subst h0
      revert hs
      decide)
    unfold normalize_status pyOr
    simp [hne, hs]
  · intro s hs
    by_cases h0 : s = ""
    · subst h0
      decide
    · have hne : (s == "") = false := beq_eq_false_iff_ne.mpr h0
      have hel : STATUS_ORDER.elem s = false := by
        cases h : STATUS_ORDER.elem s with
        | false => rfl
        | true => exact absurd (List.elem_iff.mp h) hs
      unfold normalize_status pyOr
      simp [hne, hs]
  · intro st st' h1 h2
    rw [h1, h2]

/-- C6 witness: the theorem applied at concrete valid and invalid inputs. -/
theorem claim_C6_witness :
    ("Ready" ∈ STATUS_ORDER ∧ normalize_status (some "Ready") = "Ready") ∧
    (¬ "READY" ∈ STATUS_ORDER ∧ normalize_status (some "READY") = "(Unknown)") :=
  ⟨⟨by decide, claim_C6.1 "Ready" (by decide)⟩,
   ⟨by decide, claim_C6.2.1 "READY" (by decide)⟩⟩

/-- C10: every possible normalized status is one of the six initialized
bucket keys, so both aggregation maps are total: no counting increment can
hit a missing key, for any input. -/
theorem claim_C10 :
    initCounts.map Prod.fst = ALL_KEYS ∧
    (∀ st : Option String, normalize_status st ∈ ALL_KEYS) ∧
    (∀ items : List Item,
      (build_counts items).isSome ∧ (build_repo_summary items).isSome) := by
  refine ⟨by decide, normalize_mem, fun items => ⟨?_, ?_⟩⟩
  · obtain ⟨m, hf, -, -⟩ := build_counts_spec items
    rw [hf]
    rfl
  · obtain ⟨rs, hf, -⟩ := build_repo_summary_spec items
    rw [hf]
    rfl

/-- C1 counterexample: with two Blocked items entered out of title order, the
report's rule-2 violations follow the display-sorted order, not the
snapshot's original item order as the claim states. -/
theorem claim_C1_counterexample :
    buildReport [mkBlocked "b" "no step", mkBlocked "a" "no step"] =
      [blockedMsg "a" "", blockedMsg "b" ""] ∧
    buildReport [mkBlocked "b" "no step", mkBlocked "a" "no step"] ≠
      [blockedMsg "b" "", blockedMsg "a" ""] :=
  ⟨by decide, by decide⟩

/-- C1 amended: one report build emits violations grouped by rule in the
order rule 1 (WIP limit), rule 2 (Blocked needs next step), rule 3 (P1 cap);
within rule 2 the per-item violations follow the display-sorted item order
(`violations` runs on the sorted list), which is totally ordered by the
sort key. -/
theorem claim_C1_amended (items : List Item) :
    buildReport items =
      (if doingCount (sort_items items) > 2 then
        [wipMsg (doingCount (sort_items items))] else []) ++
      (rule2Msgs (sort_items items) ++
        (if p1Count (sort_items items) > 1 then
          [p1Msg (p1Count (sort_items items))] else [])) ∧
    (blockedItems (sort_items items)).Pairwise (fun a b => itemLe a b = true) := by
  refine ⟨violations_decomp (sort_items items), ?_⟩
  exact List.Pairwise.sublist (List.filter_sublist _)
    (insertionSort_pairwise itemLe itemLe_total itemLe_trans items)

/-- C2 counterexample: a Blocked item whose first body line is the marker but
indented still yields exactly one rule-2 violation: `^⏭` does not trim the
line's leading whitespace, so the trimmed-line reading of the claim is
wrong. -/
theorem claim_C2_counterexample :
    pyStrip "  ⏭ Next: done" = "⏭ Next: done" ∧
    matchNextAt (pyStrip "  ⏭ Next: done").data = true ∧
    violations [mkBlocked "t" "  ⏭ Next: done"] = [blockedMsg "t" ""] :=
  ⟨by decide, by decide, by decide⟩

/-- C2 amended: for an item whose normalized status is Blocked, exactly one
rule-2 violation naming its title and URL is emitted iff no position of the
body that is the start of the text or directly follows a newline begins
(without trimming) with `⏭`, whitespace, then `Next:`. -/
theorem claim_C2_amended (it : Item) (h : normalize_status it.status = "Blocked") :
    ((violations [it]).count (blockedMsg (titleStr it) (urlStr it)) =
      if reNextSearch (bodyStr it) then 0 else 1) ∧
    (reNextSearch (bodyStr it) = true ↔ HasMarkerMatch (bodyStr it)) := by
  refine ⟨?_, reNextSearch_iff (bodyStr it)⟩
  have hpd : (normalize_status it.status == "Doing") = false := by
    rw [h]
    decide
  have hpb : (normalize_status it.status == "Blocked") = true := by
    rw [h]
    decide
  have hd : doingCount [it] = 0 := by
    simp [doingCount, hpd]
  have hb : blockedItems [it] = [it] := by
    simp [blockedItems, hpb]
  have hp1 : ¬ (p1Count [it] > 1) := by
    have hle := List.length_filter_le (fun it => reP1Search (itemText it)) [it]
    simp only [List.length_singleton] at hle
    unfold p1Count
    omega
  rw [violations_decomp, if_neg (by rw [hd]; omega), if_neg hp1,
    List.nil_append, List.append_nil]
  unfold rule2Msgs
  rw [hb]
  cases hrn : reNextSearch (bodyStr it) with
  | true => simp [List.filterMap, hrn]
  | false => simp [List.filterMap, hrn]

/-- C2 witness: the amended theorem applied to a concrete Blocked item with
no marker in its body. -/
theorem claim_C2_amended_witness :
    normalize_status (mkBlocked "t" "no step info").status = "Blocked" ∧
    (((violations [mkBlocked "t" "no step info"]).count
        (blockedMsg (titleStr (mkBlocked "t" "no step info"))
          (urlStr (mkBlocked "t" "no step info"))) =
      if reNextSearch (bodyStr (mkBlocked "t" "no step info")) then 0 else 1) ∧
     (reNextSearch (bodyStr (mkBlocked "t" "no step info")) = true ↔
       HasMarkerMatch (bodyStr (mkBlocked "t" "no step info")))) :=
  ⟨by decide, claim_C2_amended (mkBlocked "t" "no step info") (by decide)⟩

/-- C7: an item contributes to the P1 count iff its newline-joined title and
body contain the standalone token `P1` (case-insensitive, word boundaries on
both sides); exactly one rule-3 violation stating the count is emitted iff
the count exceeds 1; an embedded occurrence such as in "HELP1a" does not
match, and an item matching several times still counts once. -/
theorem claim_C7 (items : List Item) :
    (∀ s : String, reP1Search s = true ↔ HasP1Token s) ∧
    ((violations items).count (p1Msg (p1Count items)) =
      if p1Count items > 1 then 1 else 0) ∧
    (p1Msg (p1Count items) ∈ violations items ↔ p1Count items > 1) ∧
    p1Count [mkItem none (some "P1 first"), mkItem none (some "then p1 again"),
      mkItem none (some "HELP1a")] = 2 ∧
    reP1Search "HELP1a" = false ∧
    p1Count [mkItem none (some "P1 P1 P1")] = 1 := by
  refine ⟨reP1Search_iff, ?_, ?_, by decide, by decide, by decide⟩
  · rw [violations_decomp, List.count_append, List.count_append]
    have h2 : (rule2Msgs items).count (p1Msg (p1Count items)) = 0 :=
      List.count_eq_zero.mpr (p1Msg_not_mem_rule2 _ _)
    have h1 : (if doingCount items > 2 then [wipMsg (doingCount items)]
        else []).count (p1Msg (p1Count items)) = 0 := by
      split
      · exact List.count_eq_zero.mpr (fun hm =>
          wipMsg_ne_p1Msg _ _ (List.mem_singleton.mp hm).symm)
      · rfl
    rw [h1, h2]
    split
    · simp
    · rfl
  · rw [violations_decomp]
    constructor
    · intro hm
      rcases List.mem_append.mp hm with hm1 | hm23
      · exfalso
        by_cases hc : doingCount items > 2
        · rw [if_pos hc] at hm1
          exact wipMsg_ne_p1Msg _ _ (List.mem_singleton.mp hm1).symm
        · rw [if_neg hc] at hm1
          cases hm1
      · rcases List.mem_append.mp hm23 with hm2 | hm3
        · exact absurd hm2 (p1Msg_not_mem_rule2 _ _)
        · by_cases hc : p1Count items > 1
          · exact hc
          · rw [if_neg hc] at hm3
            cases hm3
    · intro hc
      refine List.mem_append.mpr (Or.inr (List.mem_append.mpr (Or.inr ?_)))
      rw [if_pos hc]
      exact List.mem_singleton_self _

/-- C8: exactly one rule-1 violation stating the Doing count and the limit 2
is emitted iff more than 2 items have normalized status Doing; with 2 Doing
items nothing is emitted, with 3 the message reports count 3 and limit 2. -/
theorem claim_C8 (items : List Item) :
    ((violations items).count (wipMsg (doingCount items)) =
      if doingCount items > 2 then 1 else 0) ∧
    (wipMsg (doingCount items) ∈ violations items ↔ doingCount items > 2) ∧
    violations [mkItem (some "Doing") (some "x"), mkItem (some "Doing") (some "y"),
      mkItem (some "Doing") (some "z")] = [wipMsg 3] ∧
    wipMsg 3 = "WIP超過: Doingが 3 件（上限2）" ∧
    violations [mkItem (some "Doing") (some "x"), mkItem (some "Doing") (some "y")] = [] := by
  refine ⟨?_, ?_, by decide, by decide, by decide⟩
  · rw [violations_decomp, List.count_append, List.count_append]
    have h2 : (rule2Msgs items).count (wipMsg (doingCount items)) = 0 :=
      List.count_eq_zero.mpr (wipMsg_not_mem_rule2 _ _)
    have h3 : (if p1Count items > 1 then [p1Msg (p1Count items)]
        else []).count (wipMsg (doingCount items)) = 0 := by
      split
      · exact List.count_eq_zero.mpr (fun hm =>
          wipMsg_ne_p1Msg _ _ (List.mem_singleton.mp hm))
      · rfl
    rw [h2, h3]
    split
    · simp
    · rfl
  · rw [violations_decomp]
    constructor
    · intro hm
      rcases List.mem_append.mp hm with hm1 | hm23
      · by_cases hc : doingCount items > 2
        · exact hc
        · rw [if_neg hc] at hm1
          cases hm1
      · exfalso
        rcases List.mem_append.mp hm23 with hm2 | hm3
        · exact absurd hm2 (wipMsg_not_mem_rule2 _ _)
        · by_cases hc : p1Count items > 1
          · rw [if_pos hc] at hm3
            exact wipMsg_ne_p1Msg _ _ (List.mem_singleton.mp hm3)
          · rw [if_neg hc] at hm3
            cases hm3
    · intro hc
      refine List.mem_append.mpr (Or.inl ?_)
      rw [if_pos hc]
      exact List.mem_singleton_self _

/-- C9 counterexample: an item whose `content.repository` is `" x "`
(present and non-empty) is bucketed under the stripped key `"x"`, not under
the raw value `" x "` the claim names. -/
theorem claim_C9_counterexample :
    paddedRepoItem.content.bind Content.repository = some " x " ∧
    " x " ≠ "" ∧
    repo_key paddedRepoItem = "x" ∧
    repo_key paddedRepoItem ≠ " x " ∧
    Option.map (List.map RepoSummary.repo) (build_repo_summary [paddedRepoItem]) =
      some ["x"] :=
  ⟨by decide, by decide, by decide, by decide, by decide⟩

/-- C9 amended: every item contributes to exactly one per-repository
summary, whose key is `content.repository` if present and non-empty, else
the top-level `repository` if present and non-empty, the chosen raw value
then stripped of surrounding whitespace; if the stripped key is empty the
item is bucketed under `"(unknown repo)"`, never dropped. -/
theorem claim_C9_amended :
    (∀ items rs, build_repo_summary items = some rs →
      (∀ it ∈ items, usedRepoKey it ∈ rs.map RepoSummary.repo) ∧
      (rs.map RepoSummary.repo).Nodup ∧
      (rs.map RepoSummary.total).sum = items.length) ∧
    (∀ it : Item, it.content.bind Content.repository = none →
      it.repository = none → usedRepoKey it = "(unknown repo)") ∧
    (∀ (it : Item) (s : String), it.content.bind Content.repository = some s →
      s ≠ "" →
      usedRepoKey it = (if pyStrip s == "" then "(unknown repo)" else pyStrip s)) ∧
    (∀ (it : Item) (s : String),
      (it.content.bind Content.repository = none ∨
        it.content.bind Content.repository = some "") →
      it.repository = some s → s ≠ "" →
      usedRepoKey it = (if pyStrip s == "" then "(unknown repo)" else pyStrip s)) := by
  refine ⟨?_, ?_, ?_, ?_⟩
  · intro items rs hrs
    obtain ⟨rs2, h1, -, h3, -, h5, h6⟩ := build_repo_summary_spec items
    rw [h1] at hrs
    injection hrs with h0
    subst h0
    exact ⟨h6, h5, h3⟩
  · intro it h1 h2
    unfold usedRepoKey repo_key
    rw [h1, h2]
    rfl
  · intro it s h1 hne
    have hb : (s == "") = false := beq_eq_false_iff_ne.mpr hne
    unfold usedRepoKey repo_key
    rw [h1]
    simp [pyOr, hb]
  · intro it s h1 h2 hne
    have hb : (s == "") = false := beq_eq_false_iff_ne.mpr hne
    unfold usedRepoKey repo_key
    rcases h1 with h1 | h1 <;> rw [h1, h2] <;> simp [pyOr, hb]

/-- C9 witness: the amended theorem applied to concrete items with a
missing repository and with a whitespace-padded `content.repository`. -/
theorem claim_C9_amended_witness :
    ((mkItem none none).content.bind Content.repository = none ∧
     (mkItem none none).repository = none ∧
     usedRepoKey (mkItem none none) = "(unknown repo)") ∧
    (paddedRepoItem.content.bind Content.repository = some " x " ∧ " x " ≠ "" ∧
     usedRepoKey paddedRepoItem =
       (if pyStrip " x " == "" then "(unknown repo)" else pyStrip " x ")) :=
  ⟨⟨rfl, rfl, claim_C9_amended.2.1 (mkItem none none) rfl rfl⟩,
   ⟨rfl, by decide, claim_C9_amended.2.2.1 paddedRepoItem " x " rfl (by decide)⟩⟩

end Dashboard

